import Mathlib

/-!
Verification of the tree-snapshot and differencing engine of
remote-fs-diff: a shallow embedding of `apply_ignore`,
`record_file_stats`, `file_spec` and `diff_file_list` from
`remote-fs-diff.py`, together with theorems about the claims of the
specification.

Python dicts are modelled as insertion-ordered association lists,
Python sets as plain lists used only through membership, and the
exception paths (`StopIteration` from a one-argument `next`,
`ValueError` from `list.remove`) as `Option.none`.  Machine details
that the engine never compares (the float `st_mtime`) are modelled as
`Int`.
-/

set_option maxHeartbeats 1000000

/-- Metadata of one directory entry, built from a stat call: the entry
name within its directory, the modification time and the size. -/
structure FileSpec where
  name : String
  mtime : Int
  size : Nat
  deriving DecidableEq, Repr

/-- A directory's path relative to its tree root, together with the
recorded entries of that directory. -/
structure DirContent where
  path : String
  filespecs : List FileSpec
  deriving DecidableEq, Repr

/-- A root directory path together with one DirContent per directory
visited by the walk, root first. -/
structure FileTree where
  rootdir : String
  dircontents : List DirContent
  deriving DecidableEq, Repr

/-- Result of diffing one pair of trees: both root paths and the three
insertion-ordered mappings built by diff_file_list. -/
structure FileDiff where
  rootdir_a : String
  rootdir_b : String
  only_in_a : List (String × FileSpec)
  only_in_b : List (String × FileSpec)
  changed : List (String × (FileSpec × FileSpec))
  deriving DecidableEq, Repr

/-- Join of a directory path and an entry name, as os.path.join does on
posix paths: an absolute second component wins, an empty or
separator-terminated first component is used as is, otherwise a
separator is inserted. -/
def pjoin (p n : String) : String :=
  if n.data.head? = some '/' then n
  else if p = "" then n
  else if p.data.getLast? = some '/' then p ++ n
  else p ++ "/" ++ n

/-- Python str.startswith: the string s starts with the characters of k. -/
def strStartsWith (k s : String) : Bool :=
  k.data.isPrefixOf s.data

/-- Assignment d[k] = v on a Python dict modelled as an
insertion-ordered association list: replace the value in place when the
key exists, otherwise append the new pair. -/
def dinsert {α : Type} (d : List (String × α)) (k : String) (v : α) :
    List (String × α) :=
  if d.any (fun kv => kv.1 = k) then
    d.map (fun kv => if kv.1 = k then (k, v) else kv)
  else d ++ [(k, v)]

/-- Python dict.update applied to a list of key-value pairs, first to
last. -/
def dupdate {α : Type} (d : List (String × α)) (ps : List (String × α)) :
    List (String × α) :=
  ps.foldl (fun acc kv => dinsert acc kv.1 kv.2) d

/-- Python list.remove: drop the first occurrence of x, none when x is
absent (the ValueError case). -/
def removeFirst : List String → String → Option (List String)
  | [], _ => none
  | y :: ys, x => if y = x then some ys else (removeFirst ys x).map (fun zs => y :: zs)

/-- Inner loop of apply_ignore over the path patterns: every matching
path pattern performs one list.remove of the entry (the source has no
break in this loop), so a second matching pattern errors when the entry
occurred once. -/
def pathLoop (matchf : String → String → Bool) (root f : String) :
    List String → List String → Option (List String)
  | [], cur => some cur
  | pat :: pats, cur =>
    if matchf (pjoin root f) pat then
      match removeFirst cur f with
      | none => none
      | some cur2 => pathLoop matchf root f pats cur2
    else pathLoop matchf root f pats cur

/-- Body of apply_ignore: iterate over a snapshot copy of the list; a
name-pattern match removes the entry once and skips the path patterns,
otherwise each matching path pattern removes it again. -/
def applyIgnoreGo (matchf : String → String → Bool) (root : String)
    (ignore_files ignore_paths : List String) :
    List String → List String → Option (List String)
  | [], cur => some cur
  | f :: rest, cur =>
    if ignore_files.any (fun pat => matchf f pat) then
      match removeFirst cur f with
      | none => none
      | some cur2 => applyIgnoreGo matchf root ignore_files ignore_paths rest cur2
    else
      match pathLoop matchf root f ignore_paths cur with
      | none => none
      | some cur2 => applyIgnoreGo matchf root ignore_files ignore_paths rest cur2

/-- Model of apply_ignore: the glob matcher is an injected capability;
the result is the mutated files list, or none when a list.remove raised
because the entry was no longer present. -/
def apply_ignore (matchf : String → String → Bool) (files : List String)
    (root : String) (ignore_files ignore_paths : List String) :
    Option (List String) :=
  applyIgnoreGo matchf root ignore_files ignore_paths files files

/-- Model of file_spec: stat the joined path (the stat results of the
ambient filesystem are supplied as a function) and build the FileSpec. -/
def file_spec (statF : String → Int × Nat) (f root : String) : FileSpec :=
  ⟨f, (statF (pjoin root f)).1, (statF (pjoin root f)).2⟩

/-- One directory node of the ambient filesystem handed to the walk:
plain file names and named subdirectories. -/
inductive FSDir where
  | mk (files : List String) (subdirs : List (String × FSDir))

/-- File names of a filesystem node. -/
def FSDir.files : FSDir → List String
  | .mk fs _ => fs

/-- Subdirectories of a filesystem node. -/
def FSDir.subdirs : FSDir → List (String × FSDir)
  | .mk _ sd => sd

mutual
/-- One os.walk visit of record_file_stats: apply the ignore filter to
the file names and to the subdirectory names, stat the surviving files
that still exist, append the "." self entry, then visit the surviving
subdirectories in order (topdown walk with pruning). -/
def walkDir (matchf : String → String → Bool) (statF : String → Int × Nat)
    (existsF : String → Bool) (ignore_files ignore_paths : List String)
    (full rel : String) : FSDir → Option (List DirContent)
  | .mk fsFiles subs =>
    match apply_ignore matchf fsFiles full ignore_files ignore_paths with
    | none => none
    | some files =>
      match apply_ignore matchf (subs.map Prod.fst) full ignore_files ignore_paths with
      | none => none
      | some dirs =>
        match walkSubs matchf statF existsF ignore_files ignore_paths full rel dirs subs with
        | none => none
        | some children =>
          some (DirContent.mk rel
            (((files.filter (fun f => existsF (pjoin full f))).map
                (fun f => file_spec statF f full)) ++ [file_spec statF "." full])
            :: children)

/-- Visits of the subdirectories that survived the ignore filter, in
their original order. -/
def walkSubs (matchf : String → String → Bool) (statF : String → Int × Nat)
    (existsF : String → Bool) (ignore_files ignore_paths : List String)
    (full rel : String) (dirs : List String) :
    List (String × FSDir) → Option (List DirContent)
  | [] => some []
  | (dname, sub) :: rest =>
    if dname ∈ dirs then
      match walkDir matchf statF existsF ignore_files ignore_paths
          (pjoin full dname) (if rel = "." then dname else pjoin rel dname) sub with
      | none => none
      | some cs =>
        match walkSubs matchf statF existsF ignore_files ignore_paths full rel dirs rest with
        | none => none
        | some css => some (cs ++ css)
    else walkSubs matchf statF existsF ignore_files ignore_paths full rel dirs rest
end

/-- Model of record_file_stats: one walk per root directory, in input
order; the filesystem below each root is supplied as an FSDir node, and
the whole call fails when any walk fails. -/
def record_file_stats (matchf : String → String → Bool)
    (statF : String → Int × Nat) (existsF : String → Bool)
    (roots : List (String × FSDir)) (ignore_files ignore_paths : List String) :
    Option (List FileTree) :=
  match roots with
  | [] => some []
  | (rootdir, node) :: rest =>
    match walkDir matchf statF existsF ignore_files ignore_paths rootdir "." node with
    | none => none
    | some dcs =>
      match record_file_stats matchf statF existsF rest ignore_files ignore_paths with
      | none => none
      | some ts => some (FileTree.mk rootdir dcs :: ts)

/-- Well-formedness of the walk input: no directory of the modelled
filesystem lists a plain file named ".", matching what os.walk can
produce. -/
inductive NoDot : FSDir → Prop where
  | mk {files : List String} {subs : List (String × FSDir)} :
      "." ∉ files → (∀ s ∈ subs, NoDot s.2) → NoDot (.mk files subs)

/-- Accumulator of the per-file comparison loop of diff_file_list. -/
structure CmpAcc where
  seen_files : List String
  files_in_a : List (String × FileSpec)
  changed_files : List (String × (FileSpec × FileSpec))
  deriving Repr

/-- Body of the per-file loop comparing one directory present on both
sides: skip the "." entry, mark the name seen, then record the file as
only-in-a when the other side has no file of that name, and as changed
when it does and the sizes differ. -/
def cmpStep (path : String) (files_b : List FileSpec) (acc : CmpAcc)
    (file_a : FileSpec) : CmpAcc :=
  if file_a.name = "." then acc
  else
    let acc1 : CmpAcc := { acc with seen_files := acc.seen_files ++ [file_a.name] }
    match files_b.find? (fun fb => fb.name = file_a.name) with
    | none =>
      { acc1 with files_in_a := dinsert acc1.files_in_a (pjoin path file_a.name) file_a }
    | some file_b =>
      if file_a.size ≠ file_b.size then
        { acc1 with changed_files := dinsert acc1.changed_files (pjoin path file_a.name) (file_a, file_b) }
      else acc1

/-- The per-directory comparison of diff_file_list for a directory
present in both trees: the files only in a, the files only in b (those
of b whose name was never seen while looping over a's files), and the
changed files. -/
def compareDir (path : String) (files_a files_b : List FileSpec) :
    List (String × FileSpec) × List (String × FileSpec) ×
      List (String × (FileSpec × FileSpec)) :=
  ((files_a.foldl (cmpStep path files_b) ⟨[], [], []⟩).files_in_a,
   dupdate []
     ((files_b.filter (fun fb =>
         fb.name ∉ (files_a.foldl (cmpStep path files_b) ⟨[], [], []⟩).seen_files ∧
         fb.name ≠ ".")).map
       (fun fb => (pjoin path fb.name, fb))),
   (files_a.foldl (cmpStep path files_b) ⟨[], [], []⟩).changed_files)

/-- State of the two directory loops of diff_file_list. -/
structure DiffState where
  only_in_a : List (String × FileSpec)
  only_in_b : List (String × FileSpec)
  changed : List (String × (FileSpec × FileSpec))
  seen_dirs : List String
  deriving Repr

/-- One iteration of the first directory loop of diff_file_list: mark
the path seen, skip it when some already recorded only-in-a key is a
leading substring of the path, otherwise either record a directory
marker (none models the StopIteration of the "." lookup) or compare the
file lists. -/
def step_a (dirs_b : List DirContent) (st : DiffState) (dc : DirContent) :
    Option DiffState :=
  if st.only_in_a.any (fun kv => strStartsWith kv.1 dc.path) then
    some { st with seen_dirs := st.seen_dirs ++ [dc.path] }
  else
    match dirs_b.find? (fun db => db.path = dc.path) with
    | none =>
      match dc.filespecs.find? (fun fs => fs.name = ".") with
      | none => none
      | some dot =>
        some { st with
          seen_dirs := st.seen_dirs ++ [dc.path],
          only_in_a := dinsert st.only_in_a (dc.path ++ "/") dot }
    | some db =>
      some { st with
        seen_dirs := st.seen_dirs ++ [dc.path],
        only_in_a := dupdate st.only_in_a (compareDir dc.path dc.filespecs db.filespecs).1,
        only_in_b := dupdate st.only_in_b (compareDir dc.path dc.filespecs db.filespecs).2.1,
        changed := dupdate st.changed (compareDir dc.path dc.filespecs db.filespecs).2.2 }

/-- The first directory loop of diff_file_list, over a's directories. -/
def phaseA (dirs_b : List DirContent) : List DirContent → DiffState → Option DiffState
  | [], st => some st
  | dc :: rest, st =>
    match step_a dirs_b st dc with
    | none => none
    | some st1 => phaseA dirs_b rest st1

/-- One iteration of the second directory loop of diff_file_list: skip
the path when some already recorded only-in-b key is a leading
substring of it, otherwise record a directory marker when the path was
not seen in the first loop. -/
def step_b (st : DiffState) (dc : DirContent) : Option DiffState :=
  if st.only_in_b.any (fun kv => strStartsWith kv.1 dc.path) then
    some st
  else if dc.path ∈ st.seen_dirs then
    some st
  else
    match dc.filespecs.find? (fun fs => fs.name = ".") with
    | none => none
    | some dot =>
      some { st with only_in_b := dinsert st.only_in_b (dc.path ++ "/") dot }

/-- The second directory loop of diff_file_list, over b's directories. -/
def phaseB : List DirContent → DiffState → Option DiffState
  | [], st => some st
  | dc :: rest, st =>
    match step_b st dc with
    | none => none
    | some st1 => phaseB rest st1

/-- Diff of one pair of trees: the two directory loops from the empty
state, then the FileDiff carrying both root paths. -/
def diffPair (ta tb : FileTree) : Option FileDiff :=
  match phaseA tb.dircontents ta.dircontents ⟨[], [], [], []⟩ with
  | none => none
  | some st1 =>
    match phaseB tb.dircontents st1 with
    | none => none
    | some st2 =>
      some ⟨ta.rootdir, tb.rootdir, st2.only_in_a, st2.only_in_b, st2.changed⟩

/-- Diff of a list of tree pairs, failing as a whole when any pair
fails. -/
def diffPairs : List (FileTree × FileTree) → Option (List FileDiff)
  | [] => some []
  | p :: ps =>
    match diffPair p.1 p.2 with
    | none => none
    | some d =>
      match diffPairs ps with
      | none => none
      | some ds => some (d :: ds)

/-- Model of diff_file_list: zip the two tree lists (pairing by index,
silently dropping the unmatched tail) and diff each pair. -/
def diff_file_list (filetrees_a filetrees_b : List FileTree) :
    Option (List FileDiff) :=
  diffPairs (filetrees_a.zip filetrees_b)

/-- Equality of strings, used as the injected glob matcher in the
concrete examples. -/
def eqMatch : String → String → Bool := fun s p => s = p

/-- A well-formed one-directory tree. -/
def c1tree : FileTree := ⟨"a", [⟨".", [⟨".", 0, 0⟩]⟩]⟩

/-- Side a of the c2 example: root, directory u with file ab, and
directory u/abc with file g; every directory carries its "." entry. -/
def c2treeA : FileTree :=
  ⟨"a", [⟨".", [⟨".", 0, 0⟩]⟩, ⟨"u", [⟨"ab", 5, 7⟩, ⟨".", 0, 0⟩]⟩,
         ⟨"u/abc", [⟨"g", 0, 3⟩, ⟨".", 0, 0⟩]⟩]⟩

/-- Side b of the c2 example: the same directories but no files, so
that u/ab is only in a while u/abc exists on both sides. -/
def c2treeB : FileTree :=
  ⟨"b", [⟨".", [⟨".", 0, 0⟩]⟩, ⟨"u", [⟨".", 0, 0⟩]⟩, ⟨"u/abc", [⟨".", 0, 0⟩]⟩]⟩

/-- The FileDiff the engine actually produces for the c2 example. -/
def c2diff : FileDiff := ⟨"a", "b", [("u/ab", ⟨"ab", 5, 7⟩)], [], []⟩

/-- Side a of the c4 example: file u/ab only in a, and file u/abc/w of
size 1 in a directory present on both sides. -/
def c4treeA : FileTree :=
  ⟨"a", [⟨".", [⟨".", 0, 0⟩]⟩, ⟨"u", [⟨"ab", 5, 7⟩, ⟨".", 0, 0⟩]⟩,
         ⟨"u/abc", [⟨"w", 1, 1⟩, ⟨".", 0, 0⟩]⟩]⟩

/-- Side b of the c4 example: u/abc/w has size 2 here, different from
side a's size 1. -/
def c4treeB : FileTree :=
  ⟨"b", [⟨".", [⟨".", 0, 0⟩]⟩, ⟨"u", [⟨".", 0, 0⟩]⟩,
         ⟨"u/abc", [⟨"w", 2, 2⟩, ⟨".", 0, 0⟩]⟩]⟩

/-- Side a of the c6 example: file u/ab and file u/abc/z, both only in
a, in directories u and u/abc present on both sides. -/
def c6treeA : FileTree :=
  ⟨"a", [⟨".", [⟨".", 0, 0⟩]⟩, ⟨"u", [⟨"ab", 5, 7⟩, ⟨".", 0, 0⟩]⟩,
         ⟨"u/abc", [⟨"z", 1, 4⟩, ⟨".", 0, 0⟩]⟩]⟩

/-- Side b of the c6 example: the same three directories, no plain
files. -/
def c6treeB : FileTree :=
  ⟨"b", [⟨".", [⟨".", 0, 0⟩]⟩, ⟨"u", [⟨".", 0, 0⟩]⟩, ⟨"u/abc", [⟨".", 0, 0⟩]⟩]⟩

/-- A tree whose root DirContent lacks the mandatory "." self entry. -/
def c5treeA : FileTree := ⟨"a", [⟨".", [⟨"x", 0, 1⟩]⟩]⟩

/-- A tree whose root directory is empty but carries no "." entry
either; its path matches c5treeA's root. -/
def c5treeB : FileTree := ⟨"b", [⟨".", []⟩]⟩

/-- The list zip pairs only the first min-length elements of the two
lists: both arguments may be truncated to that length without changing
the result. -/
theorem zip_take_min {α β : Type} :
    ∀ (la : List α) (lb : List β),
      la.zip lb =
        (la.take (min la.length lb.length)).zip (lb.take (min la.length lb.length))
  | [], lb => by simp
  | a :: as, [] => by simp
  | a :: as, b :: bs => by
    have ih := zip_take_min as bs
    simp only [List.length_cons, Nat.succ_min_succ, List.take_succ_cons,
      List.zip_cons_cons]
    exact congrArg (List.cons (a, b)) ih

/-- C1, amended: unequal-length tree lists are not an error for
diff_file_list; the call silently pairs trees by index up to the
shorter length, so the result equals the diff of the two lists
truncated to min length, with the extra trees ignored. -/
theorem c1_truncation (filetrees_a filetrees_b : List FileTree) :
    diff_file_list filetrees_a filetrees_b =
      diff_file_list
        (filetrees_a.take (min filetrees_a.length filetrees_b.length))
        (filetrees_b.take (min filetrees_a.length filetrees_b.length)) := by
  unfold diff_file_list
  rw [← zip_take_min]

/-- C1, counterexample to the claim as stated: a one-tree list diffed
against an empty list is a length mismatch, yet diff_file_list does not
fail: it returns a (here empty) list of FileDiff. -/
theorem c1_counterexample :
    diff_file_list [c1tree] [] = some [] ∧
    ([c1tree].length ≠ ([] : List FileTree).length) := by
  constructor
  · rfl
  · decide

/-- C2, code bug: in the c2 example the directory u/abc exists on both
sides and its file g exists only on side a, so by the claim (only
recorded keys ending in "/" may short-circuit a directory) u/abc had to
be compared and "u/abc/g" recorded; instead the file key "u/ab", which
does not end in "/", is a leading substring of "u/abc" and makes the
engine skip that directory, so the produced diff has no "u/abc/g" entry
even though no only-in-a key ends in "/". -/
theorem c2_code_bug :
    diff_file_list [c2treeA] [c2treeB] = some [c2diff] ∧
    "u/abc/g" ∉ c2diff.only_in_a.map Prod.fst ∧
    (∀ kv ∈ c2diff.only_in_a, kv.1.data.getLast? ≠ some '/') := by
  refine ⟨by decide, by decide, by decide⟩

/-- C4, code bug: in the c4 example the file w is present in both
sides' directory u/abc with sizes 1 and 2, so by the claim it must
appear in changed; but the file key "u/ab" short-circuits the directory
u/abc (leading-substring match), the files are never compared, and the
produced changed mapping is empty. -/
theorem c4_code_bug :
    diff_file_list [c4treeA] [c4treeB] =
      some [⟨"a", "b", [("u/ab", ⟨"ab", 5, 7⟩)], [], []⟩] := by
  decide

/-- C6, code bug: swapping the arguments of diff_file_list on the c6
example does not swap the only sets: the forward diff skips directory
u/abc (the file key "u/ab" is a leading substring of its path) and
reports only u/ab, while the swapped diff does compare u/abc and
additionally reports u/abc/z, so the swapped only_in_b is not the
forward only_in_a. -/
theorem c6_code_bug :
    diff_file_list [c6treeA] [c6treeB] =
      some [⟨"a", "b", [("u/ab", ⟨"ab", 5, 7⟩)], [], []⟩] ∧
    diff_file_list [c6treeB] [c6treeA] =
      some [⟨"b", "a", [], [("u/ab", ⟨"ab", 5, 7⟩), ("u/abc/z", ⟨"z", 1, 4⟩)], []⟩] := by
  refine ⟨by decide, by decide⟩

/-- C8, code bug: the path-pattern loop of apply_ignore has no break,
so an entry matching two path patterns is removed twice and the second
list.remove raises (modelled as none) instead of the entry simply being
excluded once; with a single matching pattern the entry is excluded
normally. -/
theorem c8_code_bug :
    apply_ignore eqMatch ["ab"] "r" [] ["r/ab", "r/ab"] = none ∧
    apply_ignore eqMatch ["ab"] "r" [] ["r/ab"] = some [] := by
  refine ⟨by decide, by decide⟩

/-- C5, counterexample to the claim as stated: side a's root DirContent
has no "." self entry, yet diff_file_list does not fail: because the
directory exists on both sides the self entry is never consulted and a
full diff is returned. -/
theorem c5_counterexample :
    (∀ fs ∈ [FileSpec.mk "x" 0 1], fs.name ≠ ".") ∧
    c5treeA.dircontents = [⟨".", [⟨"x", 0, 1⟩]⟩] ∧
    diff_file_list [c5treeA] [c5treeB] =
      some [⟨"a", "b", [("./x", ⟨"x", 0, 1⟩)], [], []⟩] := by
  refine ⟨by decide, by decide, by decide⟩

/-- C5, amended: a missing "." self entry makes diff_file_list fail
(with no partial result) exactly when the engine needs it, namely when
such a directory must be recorded as a directory-level marker because
the other side has no directory of that path; here for the first
directory of side a. -/
theorem c5_lazy_failure (ra rb : String) (dc : DirContent)
    (rest dbs : List DirContent)
    (hnodot : ∀ fs ∈ dc.filespecs, fs.name ≠ ".")
    (habsent : ∀ db ∈ dbs, db.path ≠ dc.path) :
    diff_file_list [⟨ra, dc :: rest⟩] [⟨rb, dbs⟩] = none := by
  have hfind : dbs.find? (fun db => db.path = dc.path) = none := by
    rw [List.find?_eq_none]
    intro db hdb
    simpa using habsent db hdb
  have hdot : dc.filespecs.find? (fun fs => fs.name = ".") = none := by
    rw [List.find?_eq_none]
    intro fs hfs
    simpa using hnodot fs hfs
  simp [diff_file_list, diffPairs, diffPair, phaseA, step_a, hfind, hdot]

/-- C5 witness: the amended failure theorem applied at a concrete tree
whose only directory lacks the "." entry and is absent on side b. -/
theorem c5_lazy_failure_witness :
    diff_file_list [⟨"a", [⟨".", [⟨"x", 0, 1⟩]⟩]⟩] [⟨"b", []⟩] = none :=
  c5_lazy_failure "a" "b" ⟨".", [⟨"x", 0, 1⟩]⟩ [] []
    (by decide) (by decide)

/-- C3: when side a consists of the root and a directory foo holding
two files (any names other than ".") plus its self entry, and side b
has only the root, the produced only_in_a is exactly the directory
marker "foo/" mapped to foo's self entry; in particular neither file of
foo is recorded individually. -/
theorem c3_dir_marker (ra rb : String) (fx fy dA dF dB : FileSpec)
    (hx : fx.name ≠ ".") (hy : fy.name ≠ ".")
    (hda : dA.name = ".") (hdf : dF.name = ".") (hdb : dB.name = ".") :
    diff_file_list [⟨ra, [⟨".", [dA]⟩, ⟨"foo", [fx, fy, dF]⟩]⟩]
        [⟨rb, [⟨".", [dB]⟩]⟩] =
      some [⟨ra, rb, [("foo/", dF)], [], []⟩] := by
  simp [diff_file_list, diffPairs, diffPair, phaseA, step_a, phaseB, step_b,
    compareDir, cmpStep, dinsert, dupdate, List.find?, hx, hy, hda, hdf, hdb,
    strStartsWith]

/-- C3 witness: the directory-marker theorem applied at concrete files
x and y of sizes 1 and 2. -/
theorem c3_dir_marker_witness :
    diff_file_list
        [⟨"ra", [⟨".", [⟨".", 0, 0⟩]⟩, ⟨"foo", [⟨"x", 1, 1⟩, ⟨"y", 2, 2⟩, ⟨".", 3, 3⟩]⟩]⟩]
        [⟨"rb", [⟨".", [⟨".", 0, 0⟩]⟩]⟩] =
      some [⟨"ra", "rb", [("foo/", ⟨".", 3, 3⟩)], [], []⟩] :=
  c3_dir_marker "ra" "rb" ⟨"x", 1, 1⟩ ⟨"y", 2, 2⟩ ⟨".", 0, 0⟩ ⟨".", 3, 3⟩ ⟨".", 0, 0⟩
    (by decide) (by decide) (by decide) (by decide) (by decide)

/-- In a list whose images under f are duplicate-free, the first
element found with the image of a member is that member itself. -/
theorem find?_self_of_nodup {α β : Type} [DecidableEq β] (f : α → β)
    (l : List α) (a : α) (hnd : (l.map f).Nodup) (ha : a ∈ l) :
    l.find? (fun x => f x = f a) = some a := by
  induction l with
  | nil => cases ha
  | cons b bs ih =>
    simp only [List.map_cons, List.nodup_cons] at hnd
    rcases List.mem_cons.mp ha with rfl | hmem
    · simp [List.find?]
    · have hne : f b ≠ f a := by
        intro he
        exact hnd.1 (he ▸ List.mem_map_of_mem f hmem)
      simp only [List.find?, hne, decide_False]
      exact ih hnd.2 hmem

/-- Folding the per-file comparison of a directory over files that each
find themselves (same name, hence same size) on the other side records
nothing and only accumulates the seen names. -/
theorem cmp_fold_self (p : String) (fs : List FileSpec) :
    ∀ (l : List FileSpec) (s : List String),
      (∀ fa ∈ l, fs.find? (fun fb => fb.name = fa.name) = some fa) →
      l.foldl (cmpStep p fs) ⟨s, [], []⟩ =
        ⟨s ++ (l.filter (fun fa => fa.name ≠ ".")).map FileSpec.name, [], []⟩
  | [], s, _ => by simp
  | fa :: rest, s, h => by
    by_cases hdot : fa.name = "."
    · have hstep : cmpStep p fs ⟨s, [], []⟩ fa = ⟨s, [], []⟩ := by
        simp [cmpStep, hdot]
      rw [List.foldl_cons, hstep,
        cmp_fold_self p fs rest s (fun x hx => h x (List.mem_cons_of_mem _ hx))]
      simp [hdot]
    · have hfind := h fa (List.mem_cons_self _ _)
      have hstep : cmpStep p fs ⟨s, [], []⟩ fa = ⟨s ++ [fa.name], [], []⟩ := by
        simp [cmpStep, hdot, hfind]
      rw [List.foldl_cons, hstep,
        cmp_fold_self p fs rest (s ++ [fa.name])
          (fun x hx => h x (List.mem_cons_of_mem _ hx))]
      simp [hdot, List.filter_cons]

/-- A file list filtered down to the entries whose name is neither "."
nor an already seen name is empty as soon as every non-"." name of the
list was seen. -/
theorem filter_not_seen_eq_nil (fs : List FileSpec) (s : List String)
    (hs : ∀ fb ∈ fs, fb.name ≠ "." → fb.name ∈ s) :
    fs.filter (fun fb => fb.name ∉ s ∧ fb.name ≠ ".") = [] := by
  rw [List.filter_eq_nil_iff]
  intro fb hfb
  simp only [decide_eq_true_eq, not_and, not_not]
  intro hnotin
  by_contra hdot
  exact hnotin (hs fb hfb hdot)

/-- Comparing a directory's file list against itself yields no
only-in-a, no only-in-b and no changed entries when the names within
the directory are duplicate-free. -/
theorem compareDir_self (p : String) (fs : List FileSpec)
    (h : (fs.map FileSpec.name).Nodup) :
    compareDir p fs fs = ([], [], []) := by
  have hfind : ∀ fa ∈ fs, fs.find? (fun fb => fb.name = fa.name) = some fa :=
    fun fa hfa => find?_self_of_nodup FileSpec.name fs fa h hfa
  have hseen : ∀ fb ∈ fs, fb.name ≠ "." →
      fb.name ∈ ([] : List String) ++
        (fs.filter (fun fa => fa.name ≠ ".")).map FileSpec.name := by
    intro fb hfb hdot
    rw [List.nil_append]
    exact List.mem_map_of_mem FileSpec.name
      (List.mem_filter.mpr ⟨hfb, by simpa using hdot⟩)
  unfold compareDir
  rw [cmp_fold_self p fs fs [] hfind]
  dsimp only
  rw [filter_not_seen_eq_nil fs _ hseen]
  rfl

/-- Running the first directory loop over directories of the same tree
(each of which finds itself on the other side) records nothing and only
accumulates the seen paths, provided directory paths are
duplicate-free and every directory's names are duplicate-free. -/
theorem phaseA_self (dirs : List DirContent)
    (hp : (dirs.map DirContent.path).Nodup)
    (hn : ∀ dc ∈ dirs, (dc.filespecs.map FileSpec.name).Nodup) :
    ∀ (l : List DirContent) (seen : List String),
      (∀ dc ∈ l, dc ∈ dirs) →
      phaseA dirs l ⟨[], [], [], seen⟩ =
        some ⟨[], [], [], seen ++ l.map DirContent.path⟩
  | [], seen, _ => by simp [phaseA]
  | dc :: rest, seen, hmem => by
    have hdc : dc ∈ dirs := hmem dc (List.mem_cons_self _ _)
    have hfind : dirs.find? (fun db => db.path = dc.path) = some dc :=
      find?_self_of_nodup DirContent.path dirs dc hp hdc
    have hcmp := compareDir_self dc.path dc.filespecs (hn dc hdc)
    have hstep : step_a dirs ⟨[], [], [], seen⟩ dc =
        some ⟨[], [], [], seen ++ [dc.path]⟩ := by
      simp [step_a, hfind, hcmp, dupdate]
    have htail := phaseA_self dirs hp hn rest (seen ++ [dc.path])
      (fun x hx => hmem x (List.mem_cons_of_mem _ hx))
    calc phaseA dirs (dc :: rest) ⟨[], [], [], seen⟩
        = phaseA dirs rest ⟨[], [], [], seen ++ [dc.path]⟩ := by
          simp [phaseA, hstep]
      _ = some ⟨[], [], [], seen ++ [dc.path] ++ rest.map DirContent.path⟩ := htail
      _ = some ⟨[], [], [], seen ++ (dc :: rest).map DirContent.path⟩ := by
          simp

/-- The second directory loop is a no-op when only_in_b is empty and
every directory path was already seen. -/
theorem phaseB_noop : ∀ (l : List DirContent) (st : DiffState),
    st.only_in_b = [] → (∀ dc ∈ l, dc.path ∈ st.seen_dirs) →
    phaseB l st = some st
  | [], _, _, _ => rfl
  | dc :: rest, st, hb, hs => by
    have hstep : step_b st dc = some st := by
      simp [step_b, hb, hs dc (List.mem_cons_self _ _)]
    have htail := phaseB_noop rest st hb
      (fun x hx => hs x (List.mem_cons_of_mem _ hx))
    simp [phaseB, hstep, htail]

/-- Diffing a well-formed tree against itself yields the empty diff. -/
theorem diffPair_self (t : FileTree)
    (hp : (t.dircontents.map DirContent.path).Nodup)
    (hn : ∀ dc ∈ t.dircontents, (dc.filespecs.map FileSpec.name).Nodup) :
    diffPair t t = some ⟨t.rootdir, t.rootdir, [], [], []⟩ := by
  have hA := phaseA_self t.dircontents hp hn t.dircontents [] (fun _ h => h)
  have hB := phaseB_noop t.dircontents
      ⟨[], [], [], [] ++ t.dircontents.map DirContent.path⟩ rfl
      (fun dc hdc => by simpa using List.mem_map_of_mem DirContent.path hdc)
  unfold diffPair
  rw [hA]
  dsimp only
  rw [hB]

/-- Zipping a list with itself pairs every element with itself. -/
theorem zip_self {α : Type} : ∀ (l : List α), l.zip l = l.map (fun a => (a, a))
  | [] => rfl
  | a :: as => by
    simpa [List.zip_cons_cons] using zip_self as

/-- C7: diffing any list of well-formed trees (duplicate-free directory
paths, duplicate-free names within each directory, as snapshots of one
unchanged tree always are) against itself yields, for every index, a
FileDiff whose only_in_a, only_in_b and changed are all empty. -/
theorem c7_self_diff_empty (ts : List FileTree)
    (hpaths : ∀ t ∈ ts, (t.dircontents.map DirContent.path).Nodup)
    (hnames : ∀ t ∈ ts, ∀ dc ∈ t.dircontents,
      (dc.filespecs.map FileSpec.name).Nodup) :
    diff_file_list ts ts =
      some (ts.map (fun t => ⟨t.rootdir, t.rootdir, [], [], []⟩)) := by
  induction ts with
  | nil => rfl
  | cons t rest ih =>
    have hd := diffPair_self t (hpaths t (List.mem_cons_self _ _))
      (hnames t (List.mem_cons_self _ _))
    have htail := ih (fun x hx => hpaths x (List.mem_cons_of_mem _ hx))
      (fun x hx => hnames x (List.mem_cons_of_mem _ hx))
    unfold diff_file_list at htail ⊢
    rw [show (t :: rest).zip (t :: rest) = (t, t) :: rest.zip rest from rfl]
    simp [diffPairs, hd, htail]

/-- C7 witness: the self-diff theorem applied at a concrete two-level
tree. -/
theorem c7_self_diff_empty_witness :
    diff_file_list
        [⟨"r", [⟨".", [⟨".", 0, 0⟩]⟩, ⟨"s", [⟨"b", 1, 2⟩, ⟨".", 0, 0⟩]⟩]⟩]
        [⟨"r", [⟨".", [⟨".", 0, 0⟩]⟩, ⟨"s", [⟨"b", 1, 2⟩, ⟨".", 0, 0⟩]⟩]⟩] =
      some [⟨"r", "r", [], [], []⟩] :=
  c7_self_diff_empty
    [⟨"r", [⟨".", [⟨".", 0, 0⟩]⟩, ⟨"s", [⟨"b", 1, 2⟩, ⟨".", 0, 0⟩]⟩]⟩]
    (by decide) (by decide)

/-- The list produced by a successful list.remove is a sublist of the
original. -/
theorem removeFirst_sublist : ∀ (l : List String) (x : String) (l2 : List String),
    removeFirst l x = some l2 → List.Sublist l2 l
  | [], x, l2, h => by simp [removeFirst] at h
  | y :: ys, x, l2, h => by
    by_cases hxy : y = x
    · unfold removeFirst at h
      rw [if_pos hxy] at h
      have : ys = l2 := Option.some.inj h
      exact this ▸ List.sublist_cons_self y ys
    · unfold removeFirst at h
      rw [if_neg hxy] at h
      obtain ⟨zs, hzs, rfl⟩ := Option.map_eq_some'.mp h
      exact (removeFirst_sublist ys x zs hzs).cons₂ y

/-- A successful run of the path-pattern loop only removes entries. -/
theorem pathLoop_sublist (m : String → String → Bool) (root f : String) :
    ∀ (pats cur cur2 : List String),
      pathLoop m root f pats cur = some cur2 → List.Sublist cur2 cur
  | [], cur, cur2, h => by
    have : cur = cur2 := Option.some.inj h
    exact this ▸ List.Sublist.refl cur2
  | pat :: pats, cur, cur2, h => by
    by_cases hm : m (pjoin root f) pat
    · unfold pathLoop at h
      rw [if_pos hm] at h
      cases hr : removeFirst cur f with
      | none => rw [hr] at h; exact Option.noConfusion h
      | some mid =>
        rw [hr] at h
        exact (pathLoop_sublist m root f pats mid cur2 h).trans
          (removeFirst_sublist cur f mid hr)
    · unfold pathLoop at h
      rw [if_neg hm] at h
      exact pathLoop_sublist m root f pats cur cur2 h

/-- A successful run of the apply_ignore body only removes entries. -/
theorem applyIgnoreGo_sublist (m : String → String → Bool) (root : String)
    (iF iP : List String) :
    ∀ (snap cur cur2 : List String),
      applyIgnoreGo m root iF iP snap cur = some cur2 → List.Sublist cur2 cur
  | [], cur, cur2, h => by
    have : cur = cur2 := Option.some.inj h
    exact this ▸ List.Sublist.refl cur2
  | f :: rest, cur, cur2, h => by
    by_cases hm : iF.any (fun pat => m f pat)
    · unfold applyIgnoreGo at h
      rw [if_pos hm] at h
      cases hr : removeFirst cur f with
      | none => rw [hr] at h; exact Option.noConfusion h
      | some mid =>
        rw [hr] at h
        exact (applyIgnoreGo_sublist m root iF iP rest mid cur2 h).trans
          (removeFirst_sublist cur f mid hr)
    · unfold applyIgnoreGo at h
      rw [if_neg hm] at h
      cases hr : pathLoop m root f iP cur with
      | none => rw [hr] at h; exact Option.noConfusion h
      | some mid =>
        rw [hr] at h
        exact (applyIgnoreGo_sublist m root iF iP rest mid cur2 h).trans
          (pathLoop_sublist m root f iP cur mid hr)

/-- The surviving list of apply_ignore is a sublist of the input. -/
theorem apply_ignore_sublist (m : String → String → Bool)
    (files : List String) (root : String) (iF iP : List String)
    (files2 : List String) (h : apply_ignore m files root iF iP = some files2) :
    List.Sublist files2 files :=
  applyIgnoreGo_sublist m root iF iP files files files2 h

/-- Every DirContent produced by a walk over the surviving
subdirectories has exactly one "." entry, given that every
subdirectory's walk does. -/
theorem walkSubs_dot_count (m : String → String → Bool)
    (statF : String → Int × Nat) (existsF : String → Bool)
    (iF iP : List String) :
    ∀ (subs : List (String × FSDir)),
      (∀ s ∈ subs, ∀ (full rel : String) (dcs : List DirContent),
        walkDir m statF existsF iF iP full rel s.2 = some dcs →
        ∀ dc ∈ dcs, (dc.filespecs.filter (fun x => x.name = ".")).length = 1) →
      ∀ (full rel : String) (dirs : List String) (dcs : List DirContent),
        walkSubs m statF existsF iF iP full rel dirs subs = some dcs →
        ∀ dc ∈ dcs, (dc.filespecs.filter (fun x => x.name = ".")).length = 1
  | [], _, full, rel, dirs, dcs, h => by
    have : ([] : List DirContent) = dcs := Option.some.inj h
    subst this
    intro dc hdc
    cases hdc
  | (dname, sub) :: rest, IH, full, rel, dirs, dcs, h => by
    by_cases hd : dname ∈ dirs
    · unfold walkSubs at h
      rw [if_pos hd] at h
      cases hw : walkDir m statF existsF iF iP (pjoin full dname)
          (if rel = "." then dname else pjoin rel dname) sub with
      | none => rw [hw] at h; exact Option.noConfusion h
      | some cs =>
        rw [hw] at h
        cases hws : walkSubs m statF existsF iF iP full rel dirs rest with
        | none => rw [hws] at h; exact Option.noConfusion h
        | some css =>
          rw [hws] at h
          have : cs ++ css = dcs := Option.some.inj h
          subst this
          intro dc hdc
          rcases List.mem_append.mp hdc with hmem | hmem
          · exact IH (dname, sub) (List.mem_cons_self _ _) _ _ cs hw dc hmem
          · exact walkSubs_dot_count m statF existsF iF iP rest
              (fun s hs => IH s (List.mem_cons_of_mem _ hs))
              full rel dirs css hws dc hmem
    · unfold walkSubs at h
      rw [if_neg hd] at h
      exact walkSubs_dot_count m statF existsF iF iP rest
        (fun s hs => IH s (List.mem_cons_of_mem _ hs)) full rel dirs dcs h

/-- Every DirContent produced by a successful walk of a filesystem none
of whose directories lists a plain file called "." carries exactly one
"." self entry. -/
theorem walkDir_dot_count (m : String → String → Bool)
    (statF : String → Int × Nat) (existsF : String → Bool)
    (iF iP : List String) (d : FSDir) (hnd : NoDot d) :
    ∀ (full rel : String) (dcs : List DirContent),
      walkDir m statF existsF iF iP full rel d = some dcs →
      ∀ dc ∈ dcs, (dc.filespecs.filter (fun x => x.name = ".")).length = 1 := by
  induction hnd with
  | @mk files subs hdot hsubs ihsub =>
    intro full rel dcs h dc hdc
    unfold walkDir at h
    split at h
    · exact Option.noConfusion h
    next files2 ha =>
      split at h
      · exact Option.noConfusion h
      next dirs2 hb =>
        split at h
        · exact Option.noConfusion h
        next children hc =>
          have hdcs : DirContent.mk rel
              (((files2.filter (fun f => existsF (pjoin full f))).map
                  (fun f => file_spec statF f full)) ++ [file_spec statF "." full])
              :: children = dcs := Option.some.inj h
          subst hdcs
          rcases List.mem_cons.mp hdc with rfl | hmem
          · show ((((files2.filter (fun f => existsF (pjoin full f))).map
                (fun f => file_spec statF f full)) ++
                  [file_spec statF "." full]).filter (fun x => x.name = ".")).length = 1
            rw [List.filter_append]
            have h1 : ((files2.filter (fun f => existsF (pjoin full f))).map
                (fun f => file_spec statF f full)).filter (fun x => x.name = ".") = [] := by
              rw [List.filter_eq_nil_iff]
              intro x hx
              obtain ⟨f, hf, rfl⟩ := List.mem_map.mp hx
              have hfin : f ∈ files2 := (List.mem_filter.mp hf).1
              have hmemf : f ∈ files :=
                (apply_ignore_sublist m files full iF iP files2 ha).subset hfin
              have hne : f ≠ "." := fun he => hdot (he ▸ hmemf)
              simpa [file_spec] using hne
            rw [h1]
            simp [file_spec]
          · exact walkSubs_dot_count m statF existsF iF iP subs ihsub
              full rel dirs2 children hc dc hmem

/-- C9: every DirContent of every FileTree produced by a successful run
of record_file_stats contains exactly one FileSpec named ".", whatever
ignore patterns, matcher, stat results and exists results are supplied,
provided the walked filesystem never lists a plain file named "."
(which os.walk never does). -/
theorem c9_unique_self_entry (matchf : String → String → Bool)
    (statF : String → Int × Nat) (existsF : String → Bool)
    (roots : List (String × FSDir)) (iF iP : List String)
    (hnd : ∀ r ∈ roots, NoDot r.2) (trees : List FileTree)
    (heq : record_file_stats matchf statF existsF roots iF iP = some trees) :
    ∀ t ∈ trees, ∀ dc ∈ t.dircontents,
      (dc.filespecs.filter (fun x => x.name = ".")).length = 1 := by
  induction roots generalizing trees with
  | nil =>
    have : ([] : List FileTree) = trees := Option.some.inj heq
    subst this
    intro t ht
    cases ht
  | cons r rest ih =>
    obtain ⟨rootdir, node⟩ := r
    unfold record_file_stats at heq
    cases hw : walkDir matchf statF existsF iF iP rootdir "." node with
    | none => rw [hw] at heq; exact Option.noConfusion heq
    | some dcs =>
      rw [hw] at heq
      cases hr : record_file_stats matchf statF existsF rest iF iP with
      | none => rw [hr] at heq; exact Option.noConfusion heq
      | some ts =>
        rw [hr] at heq
        have : FileTree.mk rootdir dcs :: ts = trees := Option.some.inj heq
        subst this
        intro t ht dc hdc
        rcases List.mem_cons.mp ht with rfl | hmem
        · exact walkDir_dot_count matchf statF existsF iF iP node
            (hnd (rootdir, node) (List.mem_cons_self _ _)) rootdir "." dcs hw dc hdc
        · exact ih (fun x hx => hnd x (List.mem_cons_of_mem _ hx)) ts hr t hmem dc hdc

/-- C9 witness: the unique-self-entry theorem applied to a concrete
one-root walk producing the directory "." with entries a and ".". -/
theorem c9_unique_self_entry_witness :
    (((DirContent.mk "." [⟨"a", 0, 1⟩, ⟨".", 0, 1⟩]).filespecs.filter
      (fun x => x.name = ".")).length = 1) :=
  c9_unique_self_entry (fun _ _ => false) (fun _ => (0, 1)) (fun _ => true)
    [("r", .mk ["a"] [])] [] []
    (fun r hr => by
      rcases List.mem_cons.mp hr with rfl | hr2
      · exact NoDot.mk (by decide) (fun s hs => absurd hs (List.not_mem_nil s))
      · exact absurd hr2 (List.not_mem_nil r))
    [⟨"r", [⟨".", [⟨"a", 0, 1⟩, ⟨".", 0, 1⟩]⟩]⟩] rfl
    ⟨"r", [⟨".", [⟨"a", 0, 1⟩, ⟨".", 0, 1⟩]⟩]⟩ (List.mem_singleton.mpr rfl)
    ⟨".", [⟨"a", 0, 1⟩, ⟨".", 0, 1⟩]⟩ (List.mem_singleton.mpr rfl)

/-- An element produced by getLast? belongs to the list. -/
theorem mem_of_getLast?_eq_some {α : Type} :
    ∀ (l : List α) (a : α), l.getLast? = some a → a ∈ l
  | [], a, h => by simp at h
  | [x], a, h => by
    have hx : x = a := by simpa using h
    rw [← hx]
    exact List.mem_singleton_self x
  | x :: y :: ys, a, h => by
    rw [List.getLast?_cons_cons] at h
    exact List.mem_cons_of_mem x (mem_of_getLast?_eq_some (y :: ys) a h)

/-- getLast? of an append with a nonempty right part is the right
part's getLast?. -/
theorem getLast?_append_right {α : Type} (l1 l2 : List α) (h : l2 ≠ []) :
    (l1 ++ l2).getLast? = l2.getLast? := by
  rw [List.getLast?_append]
  cases hl : l2.getLast? with
  | none => exact absurd (List.getLast?_eq_none_iff.mp hl) h
  | some a => rfl

/-- A nonempty string has nonempty character data. -/
theorem data_ne_nil_of_ne_empty (n : String) (h : n ≠ "") : n.data ≠ [] :=
  fun hd => h (String.ext (by simp [hd]))

/-- Two lists each extended by a separator-headed tail free of that
separator agree componentwise when equal. -/
theorem append_sep_inj {α : Type} (sep : α) :
    ∀ (xs ys ns ms : List α),
      sep ∉ ns → sep ∉ ms → xs ++ sep :: ns = ys ++ sep :: ms →
      xs = ys ∧ ns = ms
  | [], [], ns, ms, _, _, h => ⟨rfl, by simpa using h⟩
  | [], y :: ys, ns, ms, hn, _, h => by
    simp only [List.nil_append, List.cons_append, List.cons.injEq] at h
    exact absurd (h.2 ▸ List.mem_append_right ys (List.mem_cons_self sep ms)) hn
  | x :: xs, [], ns, ms, _, hm, h => by
    simp only [List.nil_append, List.cons_append, List.cons.injEq] at h
    exact absurd (h.2 ▸ List.mem_append_right xs (List.mem_cons_self sep ns)) hm
  | x :: xs, y :: ys, ns, ms, hn, hm, h => by
    simp only [List.cons_append, List.cons.injEq] at h
    obtain ⟨hxy, hnm⟩ := append_sep_inj sep xs ys ns ms hn hm h.2
    exact ⟨by rw [h.1, hxy], hnm⟩

/-- The last character of a joined path is the last character of the
joined entry name, for a nonempty name. -/
theorem pjoin_data_getLast? (p n : String) (hne : n ≠ "") :
    (pjoin p n).data.getLast? = n.data.getLast? := by
  have hnd : n.data ≠ [] := data_ne_nil_of_ne_empty n hne
  unfold pjoin
  split
  · rfl
  · split
    · rfl
    · split
      · rw [String.data_append]
        exact getLast?_append_right _ _ hnd
      · rw [String.data_append]
        exact getLast?_append_right _ _ hnd

/-- The last character of a directory-marker key is the separator. -/
theorem marker_data_getLast? (q : String) :
    (q ++ "/").data.getLast? = some '/' := by
  rw [String.data_append,
    getLast?_append_right q.data ("/" : String).data (by decide)]
  rfl

/-- A joined file key whose entry name is nonempty and separator-free
never equals a directory-marker key. -/
theorem marker_ne_filekey (p q n : String) (hn : '/' ∉ n.data) (hne : n ≠ "") :
    pjoin p n ≠ q ++ "/" := by
  intro h
  have h1 := pjoin_data_getLast? p n hne
  rw [h, marker_data_getLast? q] at h1
  exact hn (mem_of_getLast?_eq_some n.data '/' h1.symm)

/-- Directory-marker keys are injective in the directory path. -/
theorem marker_inj (p q : String) (h : p ++ "/" = q ++ "/") : p = q := by
  have hd := congrArg String.data h
  rw [String.data_append, String.data_append] at hd
  have : p.data ++ '/' :: ([] : List Char) = q.data ++ '/' :: [] := hd
  exact String.ext (append_sep_inj '/' p.data q.data [] []
    (List.not_mem_nil '/') (List.not_mem_nil '/') this).1

/-- Shape of a joined key: for a separator-free name and a path with no
trailing separator, pjoin is the name itself (empty path) or the
separated concatenation. -/
theorem pjoin_cases (p n : String) (hn : '/' ∉ n.data)
    (hp : p.data.getLast? ≠ some '/') :
    (p = "" ∧ pjoin p n = n) ∨
    (p ≠ "" ∧ (pjoin p n).data = p.data ++ '/' :: n.data) := by
  have hhead : ¬n.data.head? = some '/' := by
    intro hh
    apply hn
    cases hd : n.data with
    | nil => rw [hd] at hh; exact absurd hh (by simp)
    | cons c cs =>
      rw [hd] at hh
      have hc : c = '/' := by simpa using hh
      rw [hc]
      exact List.mem_cons_self _ _
  unfold pjoin
  rw [if_neg hhead]
  by_cases hp0 : p = ""
  · rw [if_pos hp0]
    exact Or.inl ⟨hp0, rfl⟩
  · rw [if_neg hp0, if_neg hp]
    refine Or.inr ⟨hp0, ?_⟩
    rw [String.data_append, String.data_append]
    simp

/-- Joined file keys with separator-free nonempty names over paths with
no trailing separator are injective in path and name together. -/
theorem pjoin_inj (p p2 n n2 : String)
    (hp : p.data.getLast? ≠ some '/') (hp2 : p2.data.getLast? ≠ some '/')
    (hn : '/' ∉ n.data) (hn2 : '/' ∉ n2.data)
    (hne : n ≠ "") (hne2 : n2 ≠ "")
    (h : pjoin p n = pjoin p2 n2) : p = p2 ∧ n = n2 := by
  rcases pjoin_cases p n hn hp with ⟨hp0, he⟩ | ⟨hp0, he⟩ <;>
    rcases pjoin_cases p2 n2 hn2 hp2 with ⟨hq0, he2⟩ | ⟨hq0, he2⟩
  · exact ⟨hp0.trans hq0.symm, (he.symm.trans h).trans he2⟩
  · exfalso
    apply hn
    have e1 : n = pjoin p2 n2 := he.symm.trans h
    have e2 : n.data = p2.data ++ '/' :: n2.data := by rw [e1, he2]
    rw [e2]
    exact List.mem_append_right _ (List.mem_cons_self _ _)
  · exfalso
    apply hn2
    have e1 : n2 = pjoin p n := he2.symm.trans h.symm
    have e2 : n2.data = p.data ++ '/' :: n.data := by rw [e1, he]
    rw [e2]
    exact List.mem_append_right _ (List.mem_cons_self _ _)
  · have hd : p.data ++ '/' :: n.data = p2.data ++ '/' :: n2.data := by
      rw [← he, ← he2, h]
    obtain ⟨h1, h2⟩ := append_sep_inj '/' p.data p2.data n.data n2.data hn hn2 hd
    exact ⟨String.ext h1, String.ext h2⟩

/-- A key of a dict after one assignment is an old key or the assigned
key. -/
theorem keys_dinsert {α : Type} (d : List (String × α)) (k : String) (v : α) :
    ∀ k2 ∈ (dinsert d k v).map Prod.fst, k2 ∈ d.map Prod.fst ∨ k2 = k := by
  intro k2 hk2
  unfold dinsert at hk2
  split at hk2
  · rw [List.map_map] at hk2
    obtain ⟨kv, hkv, heq⟩ := List.mem_map.mp hk2
    by_cases hc : kv.1 = k
    · right
      rw [← heq]
      simp [Function.comp, hc]
    · left
      rw [← heq]
      have : (Prod.fst ∘ fun kv => if kv.1 = k then (k, v) else kv) kv = kv.1 := by
        simp [Function.comp, hc]
      rw [this]
      exact List.mem_map_of_mem Prod.fst hkv
  · rw [List.map_append] at hk2
    rcases List.mem_append.mp hk2 with h | h
    · exact Or.inl h
    · right
      simpa using h

/-- A key of a dict after an update is an old key or a key of the
update list. -/
theorem keys_dupdate {α : Type} :
    ∀ (ps d : List (String × α)) (k2 : String),
      k2 ∈ (dupdate d ps).map Prod.fst →
      k2 ∈ d.map Prod.fst ∨ k2 ∈ ps.map Prod.fst
  | [], d, k2, h => Or.inl h
  | (k, v) :: rest, d, k2, h => by
    rcases keys_dupdate rest (dinsert d k v) k2 h with h1 | h1
    · rcases keys_dinsert d k v k2 h1 with h2 | h2
      · exact Or.inl h2
      · right
        rw [List.map_cons, h2]
        exact List.mem_cons_self _ _
    · right
      rw [List.map_cons]
      exact List.mem_cons_of_mem _ h1

/-- The comparison step skips the "." entry. -/
theorem cmpStep_dot (p : String) (fb : List FileSpec) (acc : CmpAcc)
    (fa : FileSpec) (h : fa.name = ".") : cmpStep p fb acc fa = acc := by
  simp [cmpStep, h]

/-- The comparison step on a file absent from the other side marks it
seen and records it as only-in-a. -/
theorem cmpStep_none (p : String) (fb : List FileSpec) (acc : CmpAcc)
    (fa : FileSpec) (h : ¬fa.name = ".")
    (hf : fb.find? (fun y => y.name = fa.name) = none) :
    cmpStep p fb acc fa =
      ⟨acc.seen_files ++ [fa.name],
       dinsert acc.files_in_a (pjoin p fa.name) fa,
       acc.changed_files⟩ := by
  unfold cmpStep
  rw [if_neg h, hf]

/-- The comparison step on a file found with a different size marks it
seen and records the pair as changed. -/
theorem cmpStep_some_ne (p : String) (fb : List FileSpec) (acc : CmpAcc)
    (fa y : FileSpec) (h : ¬fa.name = ".")
    (hf : fb.find? (fun z => z.name = fa.name) = some y)
    (hs : fa.size ≠ y.size) :
    cmpStep p fb acc fa =
      ⟨acc.seen_files ++ [fa.name],
       acc.files_in_a,
       dinsert acc.changed_files (pjoin p fa.name) (fa, y)⟩ := by
  unfold cmpStep
  rw [if_neg h, hf]
  simp [hs]

/-- The comparison step on a file found with the same size only marks
it seen. -/
theorem cmpStep_some_eq (p : String) (fb : List FileSpec) (acc : CmpAcc)
    (fa y : FileSpec) (h : ¬fa.name = ".")
    (hf : fb.find? (fun z => z.name = fa.name) = some y)
    (hs : ¬fa.size ≠ y.size) :
    cmpStep p fb acc fa =
      ⟨acc.seen_files ++ [fa.name], acc.files_in_a, acc.changed_files⟩ := by
  unfold cmpStep
  rw [if_neg h, hf]
  simp [hs]

/-- Keys recorded by the per-file comparison fold: an only-in-a key
comes from a non-"." file of the loop absent on the other side, a
changed key from one present on the other side, and the seen set is
exactly the old seen set plus the loop's non-"." names. -/
theorem cmp_fold_facts (p : String) (fb : List FileSpec) :
    ∀ (l : List FileSpec) (acc : CmpAcc),
      (∀ k ∈ (l.foldl (cmpStep p fb) acc).files_in_a.map Prod.fst,
        k ∈ acc.files_in_a.map Prod.fst ∨
        ∃ x ∈ l, x.name ≠ "." ∧
          fb.find? (fun y => y.name = x.name) = none ∧ k = pjoin p x.name) ∧
      (∀ k ∈ (l.foldl (cmpStep p fb) acc).changed_files.map Prod.fst,
        k ∈ acc.changed_files.map Prod.fst ∨
        ∃ x ∈ l, x.name ≠ "." ∧
          (∃ y, fb.find? (fun z => z.name = x.name) = some y) ∧
          k = pjoin p x.name) ∧
      (∀ n : String, n ∈ (l.foldl (cmpStep p fb) acc).seen_files ↔
        n ∈ acc.seen_files ∨ ∃ x ∈ l, x.name ≠ "." ∧ n = x.name)
  | [], acc => by
    refine ⟨fun k hk => Or.inl hk, fun k hk => Or.inl hk, fun n => ?_⟩
    simp
  | fa :: rest, acc => by
    by_cases hdot : fa.name = "."
    · rw [List.foldl_cons, cmpStep_dot p fb acc fa hdot]
      obtain ⟨h1, h2, h3⟩ := cmp_fold_facts p fb rest acc
      refine ⟨?_, ?_, ?_⟩
      · intro k hk
        rcases h1 k hk with h | ⟨x, hx, hxn, hxf, hk2⟩
        · exact Or.inl h
        · exact Or.inr ⟨x, List.mem_cons_of_mem _ hx, hxn, hxf, hk2⟩
      · intro k hk
        rcases h2 k hk with h | ⟨x, hx, hxn, hxf, hk2⟩
        · exact Or.inl h
        · exact Or.inr ⟨x, List.mem_cons_of_mem _ hx, hxn, hxf, hk2⟩
      · intro n
        rw [h3 n]
        constructor
        · rintro (hn | ⟨x, hx, hxn, rfl⟩)
          · exact Or.inl hn
          · exact Or.inr ⟨x, List.mem_cons_of_mem _ hx, hxn, rfl⟩
        · rintro (hn | ⟨x, hx, hxn, rfl⟩)
          · exact Or.inl hn
          · rcases List.mem_cons.mp hx with rfl | hx2
            · exact absurd hdot hxn
            · exact Or.inr ⟨x, hx2, hxn, rfl⟩
    · cases hf : fb.find? (fun y => y.name = fa.name) with
      | none =>
        rw [List.foldl_cons, cmpStep_none p fb acc fa hdot hf]
        obtain ⟨h1, h2, h3⟩ := cmp_fold_facts p fb rest
          ⟨acc.seen_files ++ [fa.name],
           dinsert acc.files_in_a (pjoin p fa.name) fa, acc.changed_files⟩
        refine ⟨?_, ?_, ?_⟩
        · intro k hk
          rcases h1 k hk with h | ⟨x, hx, hxn, hxf, hk2⟩
          · rcases keys_dinsert acc.files_in_a (pjoin p fa.name) fa k h with h2' | h2'
            · exact Or.inl h2'
            · exact Or.inr ⟨fa, List.mem_cons_self _ _, hdot, hf, h2'⟩
          · exact Or.inr ⟨x, List.mem_cons_of_mem _ hx, hxn, hxf, hk2⟩
        · intro k hk
          rcases h2 k hk with h | ⟨x, hx, hxn, hxf, hk2⟩
          · exact Or.inl h
          · exact Or.inr ⟨x, List.mem_cons_of_mem _ hx, hxn, hxf, hk2⟩
        · intro n
          rw [h3 n]
          constructor
          · rintro (hn | ⟨x, hx, hxn, rfl⟩)
            · rcases List.mem_append.mp hn with h | h
              · exact Or.inl h
              · exact Or.inr ⟨fa, List.mem_cons_self _ _, hdot, by simpa using h⟩
            · exact Or.inr ⟨x, List.mem_cons_of_mem _ hx, hxn, rfl⟩
          · rintro (hn | ⟨x, hx, hxn, rfl⟩)
            · exact Or.inl (List.mem_append_left _ hn)
            · rcases List.mem_cons.mp hx with rfl | hx2
              · exact Or.inl (List.mem_append_right _ (List.mem_cons_self _ _))
              · exact Or.inr ⟨x, hx2, hxn, rfl⟩
      | some y =>
        by_cases hs : fa.size ≠ y.size
        · rw [List.foldl_cons, cmpStep_some_ne p fb acc fa y hdot hf hs]
          obtain ⟨h1, h2, h3⟩ := cmp_fold_facts p fb rest
            ⟨acc.seen_files ++ [fa.name], acc.files_in_a,
             dinsert acc.changed_files (pjoin p fa.name) (fa, y)⟩
          refine ⟨?_, ?_, ?_⟩
          · intro k hk
            rcases h1 k hk with h | ⟨x, hx, hxn, hxf, hk2⟩
            · exact Or.inl h
            · exact Or.inr ⟨x, List.mem_cons_of_mem _ hx, hxn, hxf, hk2⟩
          · intro k hk
            rcases h2 k hk with h | ⟨x, hx, hxn, hxf, hk2⟩
            · rcases keys_dinsert acc.changed_files (pjoin p fa.name) (fa, y) k h
                with h2' | h2'
              · exact Or.inl h2'
              · exact Or.inr ⟨fa, List.mem_cons_self _ _, hdot, ⟨y, hf⟩, h2'⟩
            · exact Or.inr ⟨x, List.mem_cons_of_mem _ hx, hxn, hxf, hk2⟩
          · intro n
            rw [h3 n]
            constructor
            · rintro (hn | ⟨x, hx, hxn, rfl⟩)
              · rcases List.mem_append.mp hn with h | h
                · exact Or.inl h
                · exact Or.inr ⟨fa, List.mem_cons_self _ _, hdot, by simpa using h⟩
              · exact Or.inr ⟨x, List.mem_cons_of_mem _ hx, hxn, rfl⟩
            · rintro (hn | ⟨x, hx, hxn, rfl⟩)
              · exact Or.inl (List.mem_append_left _ hn)
              · rcases List.mem_cons.mp hx with rfl | hx2
                · exact Or.inl (List.mem_append_right _ (List.mem_cons_self _ _))
                · exact Or.inr ⟨x, hx2, hxn, rfl⟩
        · rw [List.foldl_cons, cmpStep_some_eq p fb acc fa y hdot hf hs]
          obtain ⟨h1, h2, h3⟩ := cmp_fold_facts p fb rest
            ⟨acc.seen_files ++ [fa.name], acc.files_in_a, acc.changed_files⟩
          refine ⟨?_, ?_, ?_⟩
          · intro k hk
            rcases h1 k hk with h | ⟨x, hx, hxn, hxf, hk2⟩
            · exact Or.inl h
            · exact Or.inr ⟨x, List.mem_cons_of_mem _ hx, hxn, hxf, hk2⟩
          · intro k hk
            rcases h2 k hk with h | ⟨x, hx, hxn, hxf, hk2⟩
            · exact Or.inl h
            · exact Or.inr ⟨x, List.mem_cons_of_mem _ hx, hxn, hxf, hk2⟩
          · intro n
            rw [h3 n]
            constructor
            · rintro (hn | ⟨x, hx, hxn, rfl⟩)
              · rcases List.mem_append.mp hn with h | h
                · exact Or.inl h
                · exact Or.inr ⟨fa, List.mem_cons_self _ _, hdot, by simpa using h⟩
              · exact Or.inr ⟨x, List.mem_cons_of_mem _ hx, hxn, rfl⟩
            · rintro (hn | ⟨x, hx, hxn, rfl⟩)
              · exact Or.inl (List.mem_append_left _ hn)
              · rcases List.mem_cons.mp hx with rfl | hx2
                · exact Or.inl (List.mem_append_right _ (List.mem_cons_self _ _))
                · exact Or.inr ⟨x, hx2, hxn, rfl⟩

/-- Every only-in-a key of the per-directory comparison comes from a
non-"." file of side a absent by name on side b, joined to the path. -/
theorem compareDir_keysA (p : String) (fa fb : List FileSpec) :
    ∀ k ∈ (compareDir p fa fb).1.map Prod.fst,
      ∃ x ∈ fa, x.name ≠ "." ∧
        fb.find? (fun y => y.name = x.name) = none ∧ k = pjoin p x.name := by
  intro k hk
  rcases (cmp_fold_facts p fb fa ⟨[], [], []⟩).1 k hk with h | h
  · simp at h
  · exact h

/-- Every changed key of the per-directory comparison comes from a
non-"." file of side a present by name on side b, joined to the path. -/
theorem compareDir_keysC (p : String) (fa fb : List FileSpec) :
    ∀ k ∈ (compareDir p fa fb).2.2.map Prod.fst,
      ∃ x ∈ fa, x.name ≠ "." ∧
        (∃ y, fb.find? (fun z => z.name = x.name) = some y) ∧
        k = pjoin p x.name := by
  intro k hk
  rcases (cmp_fold_facts p fb fa ⟨[], [], []⟩).2.1 k hk with h | h
  · simp at h
  · exact h

/-- Every only-in-b key of the per-directory comparison comes from a
non-"." file of side b whose name no non-"." file of side a carries,
joined to the path. -/
theorem compareDir_keysB (p : String) (fa fb : List FileSpec) :
    ∀ k ∈ (compareDir p fa fb).2.1.map Prod.fst,
      ∃ y ∈ fb, y.name ≠ "." ∧
        (∀ x ∈ fa, x.name ≠ "." → x.name ≠ y.name) ∧ k = pjoin p y.name := by
  intro k hk
  rcases keys_dupdate _ [] k hk with h | h
  · simp at h
  · rw [List.map_map] at h
    obtain ⟨y, hy, heq⟩ := List.mem_map.mp h
    have hyf := List.mem_filter.mp hy
    have hprop := of_decide_eq_true hyf.2
    refine ⟨y, hyf.1, hprop.2, ?_, ?_⟩
    · intro x hx hxn hxy
      apply hprop.1
      exact ((cmp_fold_facts p fb fa ⟨[], [], []⟩).2.2 y.name).mpr
        (Or.inr ⟨x, hx, hxn, hxy.symm⟩)
    · rw [← heq]
      rfl

/-- The first directory loop appends exactly the processed paths to the
seen set. -/
theorem phaseA_seen (dirs_b : List DirContent) :
    ∀ (l : List DirContent) (st st2 : DiffState),
      phaseA dirs_b l st = some st2 →
      st2.seen_dirs = st.seen_dirs ++ l.map DirContent.path
  | [], st, st2, h => by
    obtain rfl := Option.some.inj h
    simp
  | dc :: rest, st, st2, h => by
    unfold phaseA at h
    split at h
    · exact Option.noConfusion h
    next st1 heq =>
      have hrest := phaseA_seen dirs_b rest st1 st2 h
      have hseen : st1.seen_dirs = st.seen_dirs ++ [dc.path] := by
        unfold step_a at heq
        split at heq
        · obtain rfl := Option.some.inj heq
          rfl
        · split at heq
          · split at heq
            · exact Option.noConfusion heq
            next dot hdot =>
              obtain rfl := Option.some.inj heq
              rfl
          next db hfsome =>
            obtain rfl := Option.some.inj heq
            rfl
      rw [hrest, hseen]
      simp

/-- Key origin invariant of the first directory loop: every recorded
only-in-a key is an old key, a directory marker for an a-directory
absent from b, or a joined file key of a compared directory; likewise
for only-in-b and changed keys. -/
theorem phaseA_inv (dirs_a dirs_b : List DirContent) :
    ∀ (l : List DirContent) (st st2 : DiffState),
      (∀ dc ∈ l, dc ∈ dirs_a) →
      phaseA dirs_b l st = some st2 →
      (∀ k ∈ st2.only_in_a.map Prod.fst,
        k ∈ st.only_in_a.map Prod.fst ∨
        (∃ dc ∈ dirs_a, dirs_b.find? (fun db => db.path = dc.path) = none ∧
          k = dc.path ++ "/") ∨
        (∃ dc ∈ dirs_a, ∃ db, dirs_b.find? (fun x => x.path = dc.path) = some db ∧
          ∃ x ∈ dc.filespecs, x.name ≠ "." ∧
            db.filespecs.find? (fun y => y.name = x.name) = none ∧
            k = pjoin dc.path x.name)) ∧
      (∀ k ∈ st2.only_in_b.map Prod.fst,
        k ∈ st.only_in_b.map Prod.fst ∨
        (∃ dc ∈ dirs_a, ∃ db, dirs_b.find? (fun x => x.path = dc.path) = some db ∧
          ∃ y ∈ db.filespecs, y.name ≠ "." ∧
            (∀ x ∈ dc.filespecs, x.name ≠ "." → x.name ≠ y.name) ∧
            k = pjoin dc.path y.name)) ∧
      (∀ k ∈ st2.changed.map Prod.fst,
        k ∈ st.changed.map Prod.fst ∨
        (∃ dc ∈ dirs_a, ∃ db, dirs_b.find? (fun x => x.path = dc.path) = some db ∧
          ∃ x ∈ dc.filespecs, x.name ≠ "." ∧
            (∃ y, db.filespecs.find? (fun z => z.name = x.name) = some y) ∧
            k = pjoin dc.path x.name))
  | [], st, st2, _, h => by
    obtain rfl := Option.some.inj h
    exact ⟨fun k hk => Or.inl hk, fun k hk => Or.inl hk, fun k hk => Or.inl hk⟩
  | dc :: rest, st, st2, hmem, h => by
    unfold phaseA at h
    split at h
    · exact Option.noConfusion h
    next st1 heq =>
      have IH := phaseA_inv dirs_a dirs_b rest st1 st2
        (fun x hx => hmem x (List.mem_cons_of_mem _ hx)) h
      have hdcmem : dc ∈ dirs_a := hmem dc (List.mem_cons_self _ _)
      unfold step_a at heq
      split at heq
      · obtain rfl := Option.some.inj heq
        exact IH
      · split at heq
        next hfnone =>
          split at heq
          · exact Option.noConfusion heq
          next dot hdot =>
            obtain rfl := Option.some.inj heq
            refine ⟨?_, fun k hk => IH.2.1 k hk, fun k hk => IH.2.2 k hk⟩
            intro k hk
            rcases IH.1 k hk with hin | hfact | hfact
            · rcases keys_dinsert st.only_in_a (dc.path ++ "/") dot k hin with h2 | h2
              · exact Or.inl h2
              · exact Or.inr (Or.inl ⟨dc, hdcmem, hfnone, h2⟩)
            · exact Or.inr (Or.inl hfact)
            · exact Or.inr (Or.inr hfact)
        next db hfsome =>
          obtain rfl := Option.some.inj heq
          refine ⟨?_, ?_, ?_⟩
          · intro k hk
            rcases IH.1 k hk with hin | hfact | hfact
            · rcases keys_dupdate _ st.only_in_a k hin with h2 | h2
              · exact Or.inl h2
              · obtain ⟨x, hx, hxdot, hxf, hk2⟩ :=
                  compareDir_keysA dc.path dc.filespecs db.filespecs k h2
                exact Or.inr (Or.inr ⟨dc, hdcmem, db, hfsome, x, hx, hxdot, hxf, hk2⟩)
            · exact Or.inr (Or.inl hfact)
            · exact Or.inr (Or.inr hfact)
          · intro k hk
            rcases IH.2.1 k hk with hin | hfact
            · rcases keys_dupdate _ st.only_in_b k hin with h2 | h2
              · exact Or.inl h2
              · obtain ⟨y, hy, hydot, hall, hk2⟩ :=
                  compareDir_keysB dc.path dc.filespecs db.filespecs k h2
                exact Or.inr ⟨dc, hdcmem, db, hfsome, y, hy, hydot, hall, hk2⟩
            · exact Or.inr hfact
          · intro k hk
            rcases IH.2.2 k hk with hin | hfact
            · rcases keys_dupdate _ st.changed k hin with h2 | h2
              · exact Or.inl h2
              · obtain ⟨x, hx, hxdot, hex, hk2⟩ :=
                  compareDir_keysC dc.path dc.filespecs db.filespecs k h2
                exact Or.inr ⟨dc, hdcmem, db, hfsome, x, hx, hxdot, hex, hk2⟩
            · exact Or.inr hfact

/-- Key origin invariant of the second directory loop: only-in-a and
changed are untouched, the seen set is untouched, and every new
only-in-b key is a directory marker for a b-directory whose path was
not seen. -/
theorem phaseB_inv (dirs_b : List DirContent) :
    ∀ (l : List DirContent) (st st2 : DiffState),
      (∀ dc ∈ l, dc ∈ dirs_b) →
      phaseB l st = some st2 →
      st2.only_in_a = st.only_in_a ∧ st2.changed = st.changed ∧
      st2.seen_dirs = st.seen_dirs ∧
      (∀ k ∈ st2.only_in_b.map Prod.fst,
        k ∈ st.only_in_b.map Prod.fst ∨
        ∃ db ∈ dirs_b, db.path ∉ st.seen_dirs ∧ k = db.path ++ "/")
  | [], st, st2, _, h => by
    obtain rfl := Option.some.inj h
    exact ⟨rfl, rfl, rfl, fun k hk => Or.inl hk⟩
  | dc :: rest, st, st2, hmem, h => by
    unfold phaseB at h
    split at h
    · exact Option.noConfusion h
    next st1 heq =>
      have IH := phaseB_inv dirs_b rest st1 st2
        (fun x hx => hmem x (List.mem_cons_of_mem _ hx)) h
      have hdcmem : dc ∈ dirs_b := hmem dc (List.mem_cons_self _ _)
      unfold step_b at heq
      split at heq
      · obtain rfl := Option.some.inj heq
        exact IH
      · split at heq
        · obtain rfl := Option.some.inj heq
          exact IH
        next hnotseen =>
          split at heq
          · exact Option.noConfusion heq
          next dot hdot =>
            obtain rfl := Option.some.inj heq
            refine ⟨IH.1, IH.2.1, IH.2.2.1, ?_⟩
            intro k hk
            rcases IH.2.2.2 k hk with hin | ⟨db, hdb, hnot, hk2⟩
            · rcases keys_dinsert st.only_in_b (dc.path ++ "/") dot k hin with h2 | h2
              · exact Or.inl h2
              · exact Or.inr ⟨dc, hdcmem, hnotseen, h2⟩
            · exact Or.inr ⟨db, hdb, hnot, hk2⟩

/-- Disjointness of the three key sets for one diffed pair of
well-formed trees: no key of only_in_a is a key of only_in_b or of
changed, and no key of only_in_b is a key of changed. -/
theorem diffPair_disjoint (ta tb : FileTree)
    (H1 : (ta.dircontents.map DirContent.path).Nodup)
    (H2a : ∀ dc ∈ ta.dircontents, ∀ x ∈ dc.filespecs,
      '/' ∉ x.name.data ∧ x.name ≠ "")
    (H2b : ∀ dc ∈ tb.dircontents, ∀ x ∈ dc.filespecs,
      '/' ∉ x.name.data ∧ x.name ≠ "")
    (H3 : ∀ dc ∈ ta.dircontents, dc.path.data.getLast? ≠ some '/')
    (d : FileDiff) (heq : diffPair ta tb = some d) :
    (∀ k ∈ d.only_in_a.map Prod.fst, k ∉ d.only_in_b.map Prod.fst) ∧
    (∀ k ∈ d.only_in_a.map Prod.fst, k ∉ d.changed.map Prod.fst) ∧
    (∀ k ∈ d.only_in_b.map Prod.fst, k ∉ d.changed.map Prod.fst) := by
  unfold diffPair at heq
  split at heq
  · exact Option.noConfusion heq
  next st1 heqA =>
    split at heq
    · exact Option.noConfusion heq
    next st2 heqB =>
      obtain rfl := Option.some.inj heq
      have hA := phaseA_inv ta.dircontents tb.dircontents ta.dircontents
        ⟨[], [], [], []⟩ st1 (fun _ hx => hx) heqA
      have hseen := phaseA_seen tb.dircontents ta.dircontents
        ⟨[], [], [], []⟩ st1 heqA
      have hB := phaseB_inv tb.dircontents tb.dircontents st1 st2
        (fun _ hx => hx) heqB
      have hinj : ∀ dc ∈ ta.dircontents, ∀ dc2 ∈ ta.dircontents,
          dc.path = dc2.path → dc = dc2 :=
        fun dc hx dc2 hy he => List.inj_on_of_nodup_map H1 hx hy he
      have KA : ∀ k ∈ st2.only_in_a.map Prod.fst,
          (∃ dc ∈ ta.dircontents,
            tb.dircontents.find? (fun db => db.path = dc.path) = none ∧
            k = dc.path ++ "/") ∨
          (∃ dc ∈ ta.dircontents, ∃ db,
            tb.dircontents.find? (fun x => x.path = dc.path) = some db ∧
            ∃ x ∈ dc.filespecs, x.name ≠ "." ∧
              db.filespecs.find? (fun y => y.name = x.name) = none ∧
              k = pjoin dc.path x.name) := by
        intro k hk
        rw [hB.1] at hk
        rcases hA.1 k hk with hin | h | h
        · simp at hin
        · exact Or.inl h
        · exact Or.inr h
      have KC : ∀ k ∈ st2.changed.map Prod.fst,
          ∃ dc ∈ ta.dircontents, ∃ db,
            tb.dircontents.find? (fun x => x.path = dc.path) = some db ∧
            ∃ x ∈ dc.filespecs, x.name ≠ "." ∧
              (∃ y, db.filespecs.find? (fun z => z.name = x.name) = some y) ∧
              k = pjoin dc.path x.name := by
        intro k hk
        rw [hB.2.1] at hk
        rcases hA.2.2 k hk with hin | h
        · simp at hin
        · exact h
      have KB : ∀ k ∈ st2.only_in_b.map Prod.fst,
          (∃ dc ∈ ta.dircontents, ∃ db,
            tb.dircontents.find? (fun x => x.path = dc.path) = some db ∧
            ∃ y ∈ db.filespecs, y.name ≠ "." ∧
              (∀ x ∈ dc.filespecs, x.name ≠ "." → x.name ≠ y.name) ∧
              k = pjoin dc.path y.name) ∨
          (∃ db ∈ tb.dircontents,
            db.path ∉ ta.dircontents.map DirContent.path ∧
            k = db.path ++ "/") := by
        intro k hk
        rcases hB.2.2.2 k hk with hin | ⟨db, hdb, hnot, hk2⟩
        · rcases hA.2.1 k hin with hin2 | h
          · simp at hin2
          · exact Or.inl h
        · refine Or.inr ⟨db, hdb, ?_, hk2⟩
          rw [hseen] at hnot
          simpa using hnot
      refine ⟨?_, ?_, ?_⟩
      · intro k hka hkb
        rcases KA k hka with ⟨dc, hdc, hfnone, rfl⟩ |
          ⟨dc, hdc, db, hfsome, x, hx, hxdot, hxnone, rfl⟩
        · rcases KB _ hkb with
            ⟨dc2, hdc2, db2, hfsome2, y, hy, hydot, hall, hkey⟩ |
            ⟨db2, hdb2, hnotin, hkey⟩
          · have hyname := H2b db2 (List.mem_of_find?_eq_some hfsome2) y hy
            exact marker_ne_filekey dc2.path dc.path y.name
              hyname.1 hyname.2 hkey.symm
          · have hpath : dc.path = db2.path := marker_inj _ _ hkey
            have hno := List.find?_eq_none.mp hfnone db2 hdb2
            simp only [decide_eq_true_eq] at hno
            exact hno hpath.symm
        · rcases KB _ hkb with
            ⟨dc2, hdc2, db2, hfsome2, y, hy, hydot, hall, hkey⟩ |
            ⟨db2, hdb2, hnotin, hkey⟩
          · have hxname := H2a dc hdc x hx
            have hyname := H2b db2 (List.mem_of_find?_eq_some hfsome2) y hy
            obtain ⟨hpeq, hneq⟩ := pjoin_inj dc.path dc2.path x.name y.name
              (H3 dc hdc) (H3 dc2 hdc2) hxname.1 hyname.1 hxname.2 hyname.2 hkey
            have hdceq : dc = dc2 := hinj dc hdc dc2 hdc2 hpeq
            subst hdceq
            have hdbe : db = db2 := Option.some.inj (hfsome.symm.trans hfsome2)
            subst hdbe
            have hno := List.find?_eq_none.mp hxnone y hy
            simp only [decide_eq_true_eq] at hno
            exact hno hneq.symm
          · have hxname := H2a dc hdc x hx
            exact marker_ne_filekey dc.path db2.path x.name
              hxname.1 hxname.2 hkey
      · intro k hka hkc
        obtain ⟨dc2, hdc2, db2, hfsome2, x2, hx2, hx2dot, ⟨y2, hy2⟩, hkey2⟩ :=
          KC k hkc
        rcases KA k hka with ⟨dc, hdc, hfnone, rfl⟩ |
          ⟨dc, hdc, db, hfsome, x, hx, hxdot, hxnone, rfl⟩
        · have hx2name := H2a dc2 hdc2 x2 hx2
          exact marker_ne_filekey dc2.path dc.path x2.name
            hx2name.1 hx2name.2 hkey2.symm
        · have hxname := H2a dc hdc x hx
          have hx2name := H2a dc2 hdc2 x2 hx2
          obtain ⟨hpeq, hneq⟩ := pjoin_inj dc.path dc2.path x.name x2.name
            (H3 dc hdc) (H3 dc2 hdc2) hxname.1 hx2name.1 hxname.2 hx2name.2 hkey2
          have hdceq : dc = dc2 := hinj dc hdc dc2 hdc2 hpeq
          subst hdceq
          have hdbe : db = db2 := Option.some.inj (hfsome.symm.trans hfsome2)
          subst hdbe
          rw [← hneq] at hy2
          rw [hxnone] at hy2
          exact Option.noConfusion hy2
      · intro k hkb hkc
        obtain ⟨dc2, hdc2, db2, hfsome2, x2, hx2, hx2dot, hex2, hkey2⟩ :=
          KC k hkc
        rcases KB k hkb with
          ⟨dc, hdc, db, hfsome, y, hy, hydot, hall, rfl⟩ |
          ⟨db3, hdb3, hnotin, rfl⟩
        · have hyname := H2b db (List.mem_of_find?_eq_some hfsome) y hy
          have hx2name := H2a dc2 hdc2 x2 hx2
          obtain ⟨hpeq, hneq⟩ := pjoin_inj dc.path dc2.path y.name x2.name
            (H3 dc hdc) (H3 dc2 hdc2) hyname.1 hx2name.1 hyname.2 hx2name.2 hkey2
          have hdceq : dc = dc2 := hinj dc hdc dc2 hdc2 hpeq
          subst hdceq
          exact hall x2 hx2 hx2dot hneq.symm
        · have hx2name := H2a dc2 hdc2 x2 hx2
          exact marker_ne_filekey dc2.path db3.path x2.name
            hx2name.1 hx2name.2 hkey2.symm

/-- C10: for every FileDiff produced by diff_file_list on well-formed
trees (duplicate-free directory paths on side a, entry names free of
the path separator and nonempty on both sides, no trailing separator in
side a's directory paths — all guaranteed for walk-built snapshots),
the key sets of only_in_a, only_in_b and changed are pairwise
disjoint. -/
theorem c10_disjoint_keys :
    ∀ (tas tbs : List FileTree),
      (∀ ta ∈ tas, (ta.dircontents.map DirContent.path).Nodup) →
      (∀ ta ∈ tas, ∀ dc ∈ ta.dircontents, ∀ x ∈ dc.filespecs,
        '/' ∉ x.name.data ∧ x.name ≠ "") →
      (∀ tb ∈ tbs, ∀ dc ∈ tb.dircontents, ∀ x ∈ dc.filespecs,
        '/' ∉ x.name.data ∧ x.name ≠ "") →
      (∀ ta ∈ tas, ∀ dc ∈ ta.dircontents, dc.path.data.getLast? ≠ some '/') →
      ∀ (ds : List FileDiff), diff_file_list tas tbs = some ds →
      ∀ d ∈ ds,
        (∀ k ∈ d.only_in_a.map Prod.fst, k ∉ d.only_in_b.map Prod.fst) ∧
        (∀ k ∈ d.only_in_a.map Prod.fst, k ∉ d.changed.map Prod.fst) ∧
        (∀ k ∈ d.only_in_b.map Prod.fst, k ∉ d.changed.map Prod.fst)
  | [], tbs, _, _, _, _, ds, heq, d, hd => by
    obtain rfl := Option.some.inj heq
    cases hd
  | ta :: tas2, [], _, _, _, _, ds, heq, d, hd => by
    obtain rfl := Option.some.inj heq
    cases hd
  | ta :: tas2, tb :: tbs2, h1, h2a, h2b, h3, ds, heq, d, hd => by
    unfold diff_file_list at heq
    rw [show (ta :: tas2).zip (tb :: tbs2) = (ta, tb) :: tas2.zip tbs2 from rfl]
      at heq
    unfold diffPairs at heq
    split at heq
    · exact Option.noConfusion heq
    next d0 heq0 =>
      split at heq
      · exact Option.noConfusion heq
      next ds2 heq2 =>
        obtain rfl := Option.some.inj heq
        rcases List.mem_cons.mp hd with rfl | hd2
        · exact diffPair_disjoint ta tb (h1 ta (List.mem_cons_self _ _))
            (h2a ta (List.mem_cons_self _ _)) (h2b tb (List.mem_cons_self _ _))
            (h3 ta (List.mem_cons_self _ _)) d heq0
        · exact c10_disjoint_keys tas2 tbs2
            (fun x hx => h1 x (List.mem_cons_of_mem _ hx))
            (fun x hx => h2a x (List.mem_cons_of_mem _ hx))
            (fun x hx => h2b x (List.mem_cons_of_mem _ hx))
            (fun x hx => h3 x (List.mem_cons_of_mem _ hx))
            ds2 heq2 d hd2

/-- C10 witness: the disjointness theorem applied to a concrete pair of
one-directory trees whose diff records "./x" as only in a; that key is
then not a changed key. -/
theorem c10_disjoint_keys_witness :
    "./x" ∉ (FileDiff.mk "a" "b" [("./x", ⟨"x", 0, 1⟩)] [] []).changed.map
      Prod.fst :=
  (c10_disjoint_keys
    [⟨"a", [⟨".", [⟨"x", 0, 1⟩, ⟨".", 0, 0⟩]⟩]⟩]
    [⟨"b", [⟨".", [⟨".", 0, 0⟩]⟩]⟩]
    (by decide) (by decide) (by decide) (by decide)
    [⟨"a", "b", [("./x", ⟨"x", 0, 1⟩)], [], []⟩] rfl
    ⟨"a", "b", [("./x", ⟨"x", 0, 1⟩)], [], []⟩
    (List.mem_singleton_self _)).2.1 "./x" (by decide)
